import Mathlib

/-!
Shallow embedding of the optunity solver module (src/optunity/solvers.py)
together with proofs about the embedded operations.

The source is Python 2 code: `map`, `zip` and `filter` return lists,
`reduce` is a builtin, and a comparison between a number and a non-numeric
object orders the number first.  Floating point numbers are modelled as
rationals.  The transcendental helpers `math.exp` and `math.log` and the
Cauchy sampler are passed in as explicit function parameters, and every
`random.uniform` draw is an explicit input stream, so all definitions stay
computable and statements quantify over the random source.
-/

namespace Optunity

/-- Boolean strictly-less test on rationals, modelling Python `a < b`. -/
def ltB (a b : ℚ) : Bool := decide (a < b)

/-- Boolean strictly-greater test on rationals, modelling Python `a > b`. -/
def gtB (a b : ℚ) : Bool := decide (b < a)

/-- Python `min(xs, key=...)` / `max(xs, key=...)` (choose `better` as `ltB`
resp. `gtB` on keys): fold that keeps the current item unless the candidate's
key is strictly better, so the first extremum in iteration order wins ties.
`none` models the `ValueError` raised on an empty sequence. -/
def pyBestBy {α : Type} (better : ℚ → ℚ → Bool) (key : α → ℚ) : List α → Option α
  | [] => none
  | x :: xs => some (xs.foldl (fun b a => if better (key a) (key b) then a else b) x)

/-- Auxiliary fold for `pyArgBest`: `i` is the index of the head of the
remaining list, `acc` the currently best (index, score) pair. -/
def pyArgBestGo (better : ℚ → ℚ → Bool) : ℕ → ℕ × ℚ → List ℚ → ℕ × ℚ
  | _, acc, [] => acc
  | i, acc, s :: rest =>
      pyArgBestGo better (i + 1) (if better s acc.2 then (i, s) else acc) rest

/-- Python `max(enumerate(scores), key=op.itemgetter(1))` (and `min` with
`ltB`), as used by `GridSearch.optimize` and `RandomSearch.optimize`:
returns the (index, score) pair of the first extremal score.  `none` models
the `ValueError` raised on an empty sequence. -/
def pyArgBest (better : ℚ → ℚ → Bool) : List ℚ → Option (ℕ × ℚ)
  | [] => none
  | s :: rest => some (pyArgBestGo better 1 (0, s) rest)

/-- Python `random.uniform(lo, hi)`, written as `lo + (hi - lo) * u` where
`u` is the underlying `random.random()` draw in [0, 1]. -/
def pyUniform (lo hi u : ℚ) : ℚ := lo + (hi - lo) * u

/-- The per-bound test `len(v) == 2 and v[0] <= v[1]` from the constructor
assertions of RandomSearch, ParticleSwarm and CSA. -/
def pyValidBound (b : List ℚ) : Bool :=
  match b with
  | [lo, hi] => decide (lo ≤ hi)
  | _ => false

/-- A bound that is a two-element [lower, upper] pair with lower ≤ upper. -/
def WellBound (b : List ℚ) : Prop := ∃ lo hi, b = [lo, hi] ∧ lo ≤ hi

/-- Python `sorted` on an association list with distinct keys: the sort key
is the string key (`sorted(kwargs.items())` / `sorted(kwargs.keys())`). -/
def sortByKey {α : Type} (l : List (String × α)) : List (String × α) :=
  List.insertionSort (fun a b => a.1 ≤ b.1) l

/-! ### GridSearch -/

/-- GridSearch.suggest_from_box: `return kwargs` (the evaluation budget is
ignored entirely). -/
def gridSuggestFromBox (numEvals : ℕ) (kwargs : List (String × List ℚ)) :
    List (String × List ℚ) := kwargs

/-- itertools.product over per-parameter value lists; the rightmost
parameter varies fastest, in list order. -/
def pyProduct : List (List ℚ) → List (List ℚ)
  | [] => [[]]
  | vs :: rest => vs.flatMap (fun v => (pyProduct rest).map (fun t => v :: t))

/-- GridSearch.optimize.  The source builds `tuples` as per-parameter
columns (`zip(*itertools.product(...))`) and transposes them back
(`zip(*tuples)`) when selecting the winner; the model works directly with
the rows of the Cartesian product in `itertools.product` enumeration order,
keys sorted.  `pmap(f, *tuples)` in Python 2 raises TypeError when there is
no column sequence, i.e. when the parameter list or the product is empty. -/
def gridSearchOptimize (params : List (String × List ℚ)) (f : List ℚ → ℚ)
    (maximize : Bool) : Except String (List (String × ℚ)) :=
  let sorted := sortByKey params
  let tuples := pyProduct (sorted.map Prod.snd)
  if sorted.isEmpty || tuples.isEmpty then .error "TypeError"
  else
    let scores := tuples.map f
    match pyArgBest (if maximize then gtB else ltB) scores with
    | none => .error "ValueError"
    | some ib => .ok ((sorted.map Prod.fst).zip (tuples.getD ib.1 []))

/-! ### RandomSearch -/

/-- RandomSearch.__init__: asserts every keyword bound is an [lb, ub] pair
with lb ≤ ub, then stores the bounds unmodified (`self._bounds = kwargs`).
The stored bounds are returned; `num_evals` is stored alongside them. -/
def randomSearchInit (numEvals : ℕ) (kwargs : List (String × List ℚ)) :
    Except String (List (String × List ℚ)) :=
  if kwargs.all (fun kv => pyValidBound kv.2) then .ok kwargs
  else .error "AssertionError"

/-- RandomSearch.optimize: draws `num_evals` uniform samples per parameter
(`generate_rand_args`), evaluates them in one batch and keeps the first
extremal candidate.  The source stores the candidates as per-parameter
columns and transposes for selection; the model works with the rows.
`u i j` is the `random.random()` draw behind `random.uniform` for
evaluation `i` and (key-sorted) parameter `j`. -/
def randomSearchOptimize (bounds : List (String × List ℚ)) (numEvals : ℕ)
    (u : ℕ → ℕ → ℚ) (f : List ℚ → ℚ) (maximize : Bool) :
    Except String (List (String × ℚ)) :=
  let sorted := sortByKey bounds
  if sorted.isEmpty then .error "TypeError"
  else
    let rows := (List.range numEvals).map
      (fun i => sorted.enum.map
        (fun jkv => pyUniform (jkv.2.2.getD 0 0) (jkv.2.2.getD 1 0) (u i jkv.1)))
    let scores := rows.map f
    match pyArgBest (if maximize then gtB else ltB) scores with
    | none => .error "ValueError"
    | some ib => .ok ((sorted.map Prod.fst).zip (rows.getD ib.1 []))

/-! ### Sizing helpers shared by ParticleSwarm and CSA -/

/-- Python `int(math.ceil(float(n) / d))` for a positive integer `d`. -/
def pyCeilDiv (n d : ℕ) : ℕ := (n + d - 1) / d

/-- ParticleSwarm.suggest_from_box: returns the given bounds together with
(num_particles, num_generations) sized from the evaluation budget. -/
def pswarmSuggestFromBox (numEvals : ℕ) (kwargs : List (String × List ℚ)) :
    List (String × List ℚ) × ℕ × ℕ :=
  if 200 < numEvals then (kwargs, 50, pyCeilDiv numEvals 50)
  else if 10 < numEvals then (kwargs, 10, pyCeilDiv numEvals 10)
  else (kwargs, numEvals, 1)

/-- CSA.suggest_from_box: identical sizing, returning
(bounds, num_processes, num_generations). -/
def csaSuggestFromBox (numEvals : ℕ) (kwargs : List (String × List ℚ)) :
    List (String × List ℚ) × ℕ × ℕ :=
  if 200 < numEvals then (kwargs, 50, pyCeilDiv numEvals 50)
  else if 10 < numEvals then (kwargs, 10, pyCeilDiv numEvals 10)
  else (kwargs, numEvals, 1)

/-! ### NelderMead -/

/-- NelderMead.suggest_from_seed: `return kwargs` (the evaluation budget is
ignored entirely). -/
def nmSuggestFromSeed (numEvals : ℕ) (kwargs : List (String × ℚ)) :
    List (String × ℚ) := kwargs

/-- NelderMead.simplex_center: componentwise mean of the vertices
(`map(sum, zip(*vertices))` then divide by the count). -/
def simplexCenter (vertices : List (List ℚ)) : List ℚ :=
  match vertices with
  | [] => []
  | v :: vs =>
      (vs.foldl (fun acc w => List.zipWith (· + ·) acc w) v).map
        (fun s => s / (vertices.length : ℚ))

/-- NelderMead.scale: `coeff * x` componentwise. -/
def nmScale (vertex : List ℚ) (coeff : ℚ) : List ℚ := vertex.map (fun x => coeff * x)

/-- NelderMead.reflect: `x0 + alpha * (x0 - xn1)` componentwise. -/
def nmReflect (x0 xn1 : List ℚ) (alpha : ℚ) : List ℚ :=
  List.zipWith (· + ·) x0 (nmScale (List.zipWith (· - ·) x0 xn1) alpha)

/-- CPython 2 default ordering of a float against an `array.array`: every
number compares below every non-numeric object, so float < array is True. -/
def py2LtNumArray (x : ℚ) (v : List ℚ) : Bool := true

/-- CPython 2 default ordering of an `array.array` against a float: an
array never compares below a number, so array < float is False. -/
def py2LtArrayNum (v : List ℚ) (x : ℚ) : Bool := false

/-- The reflection guard as written in the source,
`vertices[0] < fxr < vertices[-2]`: the chain compares `fxr` (a float)
against the vertex arrays themselves, not against the cached values, and
its first comparison array < float is always False in CPython 2. -/
def nmReflectGuard (vertices : List (List ℚ)) (fxr : ℚ) : Bool :=
  py2LtArrayNum (vertices.getD 0 []) fxr &&
    py2LtNumArray fxr (vertices.getD (vertices.length - 2) [])

/-- Modelled from the spec: the intended reflection guard, comparing `fxr`
strictly against the cached best and second-worst function values
(`values[0] < fxr < values[-2]`); the spec marks the source's
object-valued comparison as a latent bug that must not be replicated. -/
def nmReflectGuardIntended (values : List ℚ) (fxr : ℚ) : Bool :=
  decide (values.getD 0 0 < fxr) && decide (fxr < values.getD (values.length - 2) 0)

/-- One NelderMead iteration body (after the simplex has been sorted and the
convergence test failed): reflect, then expand / contract / shrink exactly
as in `NelderMead._solve`, with the reflection guard of the source. -/
def nmIteration (f : List ℚ → ℚ) (vertices : List (List ℚ)) (values : List ℚ) :
    List (List ℚ) × List ℚ :=
  let x0 := simplexCenter vertices.dropLast
  let worst := vertices.getD (vertices.length - 1) []
  let xr := nmReflect x0 worst 1
  let fxr := f xr
  if nmReflectGuard vertices fxr then
    (vertices.dropLast ++ [xr], values.dropLast ++ [fxr])
  else if fxr < values.getD 0 0 then
    let xe := nmReflect x0 worst 2
    let fxe := f xe
    if fxe < fxr then (vertices.dropLast ++ [xe], values.dropLast ++ [fxe])
    else (vertices.dropLast ++ [xr], values.dropLast ++ [fxr])
  else
    let xc := nmReflect x0 worst (-(1 / 2))
    let fxc := f xc
    if fxc < values.getD (values.length - 1) 0 then
      (vertices.dropLast ++ [xc], values.dropLast ++ [fxc])
    else
      match vertices, values with
      | v0 :: vrest, val0 :: _ =>
          let shrunk := vrest.map (fun vi => nmReflect v0 vi (1 / 2))
          (v0 :: shrunk, val0 :: shrunk.map f)
      | _, _ => (vertices, values)

/-! ### ParticleSwarm -/

/-- ParticleSwarm.__init__ default: `max_speed = 2.0 / num_generations`
when no max_speed is supplied. -/
def psoMaxSpeed (maxSpeed : Option ℚ) (numGenerations : ℕ) : ℚ :=
  match maxSpeed with
  | some s => s
  | none => 2 / (numGenerations : ℚ)

/-- ParticleSwarm.__init__: `smax = [max_speed * (b[1] - b[0]) for _, b in bounds]`. -/
def psoSmax (maxSpeed : ℚ) (bounds : List (String × List ℚ)) : List ℚ :=
  bounds.map (fun kv => maxSpeed * (kv.2.getD 1 0 - kv.2.getD 0 0))

/-- ParticleSwarm.__init__: `smin = map(op.neg, smax)`. -/
def psoSmin (smax : List ℚ) : List ℚ := smax.map (fun s => -s)

/-- The clamp in ParticleSwarm.updateParticle: `if speed < smin[i]` then
smin, `elif speed > smax[i]` then smax, else unchanged. -/
def pyClampSpeed (lo hi s : ℚ) : ℚ := if s < lo then lo else if hi < s then hi else s

/-- ParticleSwarm.updateParticle velocity step: add `u1 * (personal best -
position) + u2 * (swarm best - position)` to the speed, then clamp each
component to [smin i, smax i]. -/
def psoUpdateSpeed (smin smax pos best gbest speed u1 u2 : List ℚ) : List ℚ :=
  let vu1 := List.zipWith (· * ·) u1 (List.zipWith (· - ·) best pos)
  let vu2 := List.zipWith (· * ·) u2 (List.zipWith (· - ·) gbest pos)
  let raw := List.zipWith (· + ·) speed (List.zipWith (· + ·) vu1 vu2)
  (raw.zip (smin.zip smax)).map (fun slh => pyClampSpeed slh.2.1 slh.2.2 slh.1)

/-- ParticleSwarm.updateParticle: clamped velocity update followed by
`position += speed`; returns (new position, new speed). -/
def psoUpdateParticle (smin smax pos best gbest speed u1 u2 : List ℚ) :
    List ℚ × List ℚ :=
  let newSpeed := psoUpdateSpeed smin smax pos best gbest speed u1 u2
  (List.zipWith (· + ·) pos newSpeed, newSpeed)

/-- ParticleSwarm.__init__ bound validation (same assertion as
RandomSearch); returns the stored bounds. -/
def particleSwarmInit (numParticles numGenerations : ℕ) (maxSpeed : Option ℚ)
    (kwargs : List (String × List ℚ)) : Except String (List (String × List ℚ)) :=
  if kwargs.all (fun kv => pyValidBound kv.2) then .ok kwargs
  else .error "AssertionError"

/-! ### CSA (coupled simulated annealing) -/

/-- One simulated annealing process (class `CSA.SA`): accepted state `x`,
its cost (None until the seeding acceptance), and the append-only log of
every (proposal, cost) pair.  The transient proposal fields `y`/`ycost`
are threaded through `saAccept` explicitly instead of being stored. -/
structure SAProc where
  x : List ℚ
  cost : Option ℚ
  log : List (List ℚ × ℚ)
  deriving DecidableEq

/-- CSA.SA.accept: append `(y, ycost)` to the log unconditionally, then
accept the proposal iff the uniform draw is ≤ the acceptance probability. -/
def saAccept (p : SAProc) (y : List ℚ) (ycost : ℚ) (draw prob : ℚ) : SAProc :=
  if draw ≤ prob then { x := y, cost := some ycost, log := p.log ++ [(y, ycost)] }
  else { p with log := p.log ++ [(y, ycost)] }

/-- CSA.T: generation temperature `T_0 / (k + 1)`. -/
def csaT (T0 : ℚ) (k : ℕ) : ℚ := T0 / ((k : ℚ) + 1)

/-- CSA.Tacc: acceptance temperature, `Tacc_0` at k = 0 and
`Tacc_0 / log(k + 1)` afterwards; `Lg` models `math.log`. -/
def csaTacc (Lg : ℚ → ℚ) (Tacc0 : ℚ) (k : ℕ) : ℚ :=
  if k = 0 then Tacc0 else Tacc0 / Lg ((k : ℚ) + 1)

/-- CSA.exp: `exp(-cost * multiplier / Tacc(k))`; `E` models `math.exp` and
`TaccK` is the already-computed acceptance temperature of the generation. -/
def csaExp (E : ℚ → ℚ) (TaccK cost mult : ℚ) : ℚ := E (-cost * mult / TaccK)

/-- The coupling term of a CSA generation:
`gamma = reduce(op.add, [exp(proc.cost, mult, k) for proc in processes])`,
computed from the accepted costs before any process is updated. -/
def csaGamma (E : ℚ → ℚ) (TaccK mult : ℚ) (procs : List SAProc) : ℚ :=
  (procs.map (fun p => csaExp E TaccK (p.cost.getD 0) mult)).sum

/-- CSA.SA.generate: the proposal `y = x + eps` with
`eps = [T(k) * cauchy_sample() for each dimension]`. -/
def csaGenerate (Tk : ℚ) (cauchyRow : ℕ → ℚ) (numDims : ℕ) (x : List ℚ) : List ℚ :=
  List.zipWith (· + ·) x ((List.range numDims).map (fun d => Tk * cauchyRow d))

/-- The acceptance probability computed in CSA.optimize: 1.0 when the
proposal cost strictly improves on the accepted cost under the
maximize/minimize comparator, else `expcost / (expcost + gamma)` with
`expcost = exp(-ycost * mult / Tacc(k))`. -/
def csaAcceptProb (E : ℚ → ℚ) (TaccK mult : ℚ) (maximize : Bool)
    (gamma cost ycost : ℚ) : ℚ :=
  if (if maximize then cost < ycost else ycost < cost) then 1
  else csaExp E TaccK ycost mult / (csaExp E TaccK ycost mult + gamma)

/-- Modelled from the spec, for comparison with `csaAcceptProb`: the
acceptance probability as the spec words it, `exp(-ycost*sign/Tacc(k))`
divided by the coupling term `gamma(k)` alone. -/
def csaAcceptProbClaim (E : ℚ → ℚ) (TaccK mult : ℚ) (maximize : Bool)
    (gamma cost ycost : ℚ) : ℚ :=
  if (if maximize then cost < ycost else ycost < cost) then 1
  else csaExp E TaccK ycost mult / gamma

/-- One CSA annealing generation (`k = iteration`): every process proposes
`y = x + eps`, all proposals are evaluated, `gamma` is computed from the
accepted costs, and each process runs `accept` with its probability and
uniform draw.  The batch evaluation `pmap(evaluate, states)` is
order-preserving, so each cost is inlined at its process. -/
def csaGenStep (E Lg : ℚ → ℚ) (T0 Tacc0 : ℚ) (numDims : ℕ) (mult : ℚ)
    (maximize : Bool) (f : List ℚ → ℚ) (cauchyK : ℕ → ℕ → ℚ) (drawsK : ℕ → ℚ)
    (k : ℕ) (procs : List SAProc) : List SAProc :=
  let TaccK := csaTacc Lg Tacc0 k
  let gamma := csaGamma E TaccK mult procs
  procs.enum.map (fun ip =>
    let y := csaGenerate (csaT T0 k) (cauchyK ip.1) numDims ip.2.x
    let ycost := f y
    saAccept ip.2 y ycost (drawsK ip.1)
      (csaAcceptProb E TaccK mult maximize gamma (ip.2.cost.getD 0) ycost))

/-- CSA.optimize initialization: each process starts at a uniform sample
(`inits i`), its cost is evaluated once and accepted with probability 1.0,
which also writes the first log entry. -/
def csaInitProcs (numProcs : ℕ) (inits : ℕ → List ℚ) (f : List ℚ → ℚ)
    (draws0 : ℕ → ℚ) : List SAProc :=
  (List.range numProcs).map (fun i =>
    saAccept { x := inits i, cost := none, log := [] } (inits i) (f (inits i))
      (draws0 i) 1)

/-- The state of all CSA processes after initialization and the
`num_generations - 1` annealing iterations of CSA.optimize.
`cauchy g i d` and `draws g i` are the random streams of generation `g`
(generation 0 being the initialization draws). -/
def csaRun (E Lg : ℚ → ℚ) (T0 Tacc0 : ℚ) (numDims numProcs numGens : ℕ)
    (maximize : Bool) (f : List ℚ → ℚ) (inits : ℕ → List ℚ)
    (cauchy : ℕ → ℕ → ℕ → ℚ) (draws : ℕ → ℕ → ℚ) : List SAProc :=
  let mult : ℚ := if maximize then -1 else 1
  (List.range (numGens - 1)).foldl
    (fun procs it =>
      csaGenStep E Lg T0 Tacc0 numDims mult maximize f (cauchy it) (draws (it + 1))
        it procs)
    (csaInitProcs numProcs inits f (draws 0))

/-- CSA.optimize final selection: chain every process log and return the
state of the extremal (first-winning) entry by cost, `max` when maximizing
and `min` when minimizing. -/
def csaOptimize (E Lg : ℚ → ℚ) (T0 Tacc0 : ℚ) (numDims numProcs numGens : ℕ)
    (maximize : Bool) (f : List ℚ → ℚ) (inits : ℕ → List ℚ)
    (cauchy : ℕ → ℕ → ℕ → ℚ) (draws : ℕ → ℕ → ℚ) : Except String (List ℚ) :=
  let procs := csaRun E Lg T0 Tacc0 numDims numProcs numGens maximize f inits cauchy draws
  let logs := procs.flatMap SAProc.log
  match pyBestBy (if maximize then gtB else ltB) Prod.snd logs with
  | none => .error "ValueError"
  | some best => .ok best.1

/-- CSA.__init__ bound validation (same assertion as RandomSearch);
returns the stored bounds. -/
def csaInitSolver (numProcesses numGenerations : ℕ) (T0 Tacc0 : ℚ)
    (kwargs : List (String × List ℚ)) : Except String (List (String × List ℚ)) :=
  if kwargs.all (fun kv => pyValidBound kv.2) then .ok kwargs
  else .error "AssertionError"

/-! ### Helper lemmas about the Python selection functions -/

lemma pyArgBestGo_max_spec : ∀ (l : List ℚ) (i0 : ℕ) (acc : ℕ × ℚ),
    (pyArgBestGo gtB i0 acc l = acc ∧ ∀ t, t < l.length → l.getD t 0 ≤ acc.2)
    ∨ ∃ t, t < l.length ∧ pyArgBestGo gtB i0 acc l = (i0 + t, l.getD t 0) ∧
        acc.2 < l.getD t 0 ∧ (∀ s, s < t → l.getD s 0 < l.getD t 0) ∧
        (∀ s, s < l.length → l.getD s 0 ≤ l.getD t 0) := by
  intro l
  induction l with
  | nil => intro i0 acc; left; exact ⟨rfl, fun t ht => absurd ht (by simp)⟩
  | cons a rest ih =>
    intro i0 acc
    by_cases h : acc.2 < a
    · have hg : gtB a acc.2 = true := by simp [gtB, h]
      have hstep : pyArgBestGo gtB i0 acc (a :: rest) = pyArgBestGo gtB (i0 + 1) (i0, a) rest := by
        simp [pyArgBestGo, hg]
      rcases ih (i0 + 1) (i0, a) with ⟨heq, hall⟩ | ⟨t, ht, heq, hlt, hfirst, hall⟩
      · right
        refine ⟨0, by simp, ?_, by simpa using h, ?_, ?_⟩
        · rw [hstep, heq]; simp
        · intro s hs; omega
        · intro s hs
          cases s with
          | zero => simp
          | succ s =>
            simp only [List.getD_cons_succ, List.getD_cons_zero]
            exact hall s (by simpa using hs)
      · right
        refine ⟨t + 1, by simpa using ht, ?_, ?_, ?_, ?_⟩
        · rw [hstep, heq]; simp only [List.getD_cons_succ]; congr 1; omega
        · simp only [List.getD_cons_succ]
          exact h.trans hlt
        · intro s hs
          cases s with
          | zero => simpa using hlt
          | succ s => simpa using hfirst s (by omega)
        · intro s hs
          cases s with
          | zero => simpa using hlt.le
          | succ s => simpa using hall s (by simpa using hs)
    · have hg : gtB a acc.2 = false := by simp [gtB]; exact not_lt.mp h
      have hstep : pyArgBestGo gtB i0 acc (a :: rest) = pyArgBestGo gtB (i0 + 1) acc rest := by
        simp [pyArgBestGo, hg]
      have ha : a ≤ acc.2 := not_lt.mp h
      rcases ih (i0 + 1) acc with ⟨heq, hall⟩ | ⟨t, ht, heq, hlt, hfirst, hall⟩
      · left
        refine ⟨by rw [hstep, heq], ?_⟩
        intro s hs
        cases s with
        | zero => simpa using ha
        | succ s => simpa using hall s (by simpa using hs)
      · right
        refine ⟨t + 1, by simpa using ht, ?_, ?_, ?_, ?_⟩
        · rw [hstep, heq]; simp only [List.getD_cons_succ]; congr 1; omega
        · simpa using hlt
        · intro s hs
          cases s with
          | zero => simpa using lt_of_le_of_lt ha hlt
          | succ s => simpa using hfirst s (by omega)
        · intro s hs
          cases s with
          | zero => simpa using (lt_of_le_of_lt ha hlt).le
          | succ s => simpa using hall s (by simpa using hs)

lemma pyArgBestGo_min_spec : ∀ (l : List ℚ) (i0 : ℕ) (acc : ℕ × ℚ),
    (pyArgBestGo ltB i0 acc l = acc ∧ ∀ t, t < l.length → acc.2 ≤ l.getD t 0)
    ∨ ∃ t, t < l.length ∧ pyArgBestGo ltB i0 acc l = (i0 + t, l.getD t 0) ∧
        l.getD t 0 < acc.2 ∧ (∀ s, s < t → l.getD t 0 < l.getD s 0) ∧
        (∀ s, s < l.length → l.getD t 0 ≤ l.getD s 0) := by
  intro l
  induction l with
  | nil => intro i0 acc; left; exact ⟨rfl, fun t ht => absurd ht (by simp)⟩
  | cons a rest ih =>
    intro i0 acc
    by_cases h : a < acc.2
    · have hg : ltB a acc.2 = true := by simp [ltB, h]
      have hstep : pyArgBestGo ltB i0 acc (a :: rest) = pyArgBestGo ltB (i0 + 1) (i0, a) rest := by
        simp [pyArgBestGo, hg]
      rcases ih (i0 + 1) (i0, a) with ⟨heq, hall⟩ | ⟨t, ht, heq, hlt, hfirst, hall⟩
      · right
        refine ⟨0, by simp, ?_, by simpa using h, ?_, ?_⟩
        · rw [hstep, heq]; simp
        · intro s hs; omega
        · intro s hs
          cases s with
          | zero => simp
          | succ s =>
            simp only [List.getD_cons_succ, List.getD_cons_zero]
            exact hall s (by simpa using hs)
      · right
        refine ⟨t + 1, by simpa using ht, ?_, ?_, ?_, ?_⟩
        · rw [hstep, heq]; simp only [List.getD_cons_succ]; congr 1; omega
        · simp only [List.getD_cons_succ]
          exact hlt.trans h
        · intro s hs
          cases s with
          | zero => simpa using hlt
          | succ s => simpa using hfirst s (by omega)
        · intro s hs
          cases s with
          | zero => simpa using hlt.le
          | succ s => simpa using hall s (by simpa using hs)
    · have hg : ltB a acc.2 = false := by simp [ltB]; exact not_lt.mp h
      have hstep : pyArgBestGo ltB i0 acc (a :: rest) = pyArgBestGo ltB (i0 + 1) acc rest := by
        simp [pyArgBestGo, hg]
      have ha : acc.2 ≤ a := not_lt.mp h
      rcases ih (i0 + 1) acc with ⟨heq, hall⟩ | ⟨t, ht, heq, hlt, hfirst, hall⟩
      · left
        refine ⟨by rw [hstep, heq], ?_⟩
        intro s hs
        cases s with
        | zero => simpa using ha
        | succ s => simpa using hall s (by simpa using hs)
      · right
        refine ⟨t + 1, by simpa using ht, ?_, ?_, ?_, ?_⟩
        · rw [hstep, heq]; simp only [List.getD_cons_succ]; congr 1; omega
        · simpa using hlt
        · intro s hs
          cases s with
          | zero => simpa using lt_of_lt_of_le hlt ha
          | succ s => simpa using hfirst s (by omega)
        · intro s hs
          cases s with
          | zero => simpa using (lt_of_lt_of_le hlt ha).le
          | succ s => simpa using hall s (by simpa using hs)

/-- The first extremal score wins: specification of `pyArgBest` with `gtB`
(Python `max(enumerate(scores), key=itemgetter(1))`). -/
lemma pyArgBest_max_spec (l : List ℚ) (h : l ≠ []) :
    ∃ i v, pyArgBest gtB l = some (i, v) ∧ i < l.length ∧ l.getD i 0 = v ∧
      (∀ j, j < l.length → l.getD j 0 ≤ v) ∧ ∀ j, j < i → l.getD j 0 < v := by
  cases l with
  | nil => exact absurd rfl h
  | cons s rest =>
    rcases pyArgBestGo_max_spec rest 1 (0, s) with ⟨heq, hall⟩ | ⟨t, ht, heq, hlt, hfirst, hall⟩
    · refine ⟨0, s, ?_, by simp, by simp, ?_, ?_⟩
      · simp [pyArgBest, heq]
      · intro j hj
        cases j with
        | zero => simp
        | succ j => simpa using hall j (by simpa using hj)
      · intro j hj; omega
    · refine ⟨t + 1, rest.getD t 0, ?_, by simpa using ht, by simp, ?_, ?_⟩
      · simp only [pyArgBest, heq]; congr 2; omega
      · intro j hj
        cases j with
        | zero => simpa using hlt.le
        | succ j => simpa using hall j (by simpa using hj)
      · intro j hj
        cases j with
        | zero => simpa using hlt
        | succ j => simpa using hfirst j (by omega)

/-- The first extremal score wins: specification of `pyArgBest` with `ltB`
(Python `min(enumerate(scores), key=itemgetter(1))`). -/
lemma pyArgBest_min_spec (l : List ℚ) (h : l ≠ []) :
    ∃ i v, pyArgBest ltB l = some (i, v) ∧ i < l.length ∧ l.getD i 0 = v ∧
      (∀ j, j < l.length → v ≤ l.getD j 0) ∧ ∀ j, j < i → v < l.getD j 0 := by
  cases l with
  | nil => exact absurd rfl h
  | cons s rest =>
    rcases pyArgBestGo_min_spec rest 1 (0, s) with ⟨heq, hall⟩ | ⟨t, ht, heq, hlt, hfirst, hall⟩
    · refine ⟨0, s, ?_, by simp, by simp, ?_, ?_⟩
      · simp [pyArgBest, heq]
      · intro j hj
        cases j with
        | zero => simp
        | succ j => simpa using hall j (by simpa using hj)
      · intro j hj; omega
    · refine ⟨t + 1, rest.getD t 0, ?_, by simpa using ht, by simp, ?_, ?_⟩
      · simp only [pyArgBest, heq]; congr 2; omega
      · intro j hj
        cases j with
        | zero => simpa using hlt.le
        | succ j => simpa using hall j (by simpa using hj)
      · intro j hj
        cases j with
        | zero => simpa using hlt
        | succ j => simpa using hfirst j (by omega)

lemma foldlBestMin_spec {α : Type} (key : α → ℚ) :
    ∀ (xs : List α) (acc : α),
      (xs.foldl (fun b a => if ltB (key a) (key b) then a else b) acc = acc
        ∨ xs.foldl (fun b a => if ltB (key a) (key b) then a else b) acc ∈ xs)
      ∧ key (xs.foldl (fun b a => if ltB (key a) (key b) then a else b) acc) ≤ key acc
      ∧ ∀ q ∈ xs, key (xs.foldl (fun b a => if ltB (key a) (key b) then a else b) acc) ≤ key q := by
  intro xs
  induction xs with
  | nil => intro acc; exact ⟨Or.inl rfl, le_refl _, by simp⟩
  | cons a rest ih =>
    intro acc
    by_cases h : key a < key acc
    · have hg : ltB (key a) (key acc) = true := by simp [ltB, h]
      have hstep : (a :: rest).foldl (fun b c => if ltB (key c) (key b) then c else b) acc
          = rest.foldl (fun b c => if ltB (key c) (key b) then c else b) a := by
        simp [List.foldl_cons, hg]
      rcases ih a with ⟨hmem, hle, hall⟩
      rw [hstep]
      refine ⟨?_, hle.trans h.le, ?_⟩
      · rcases hmem with he | hm
        · exact Or.inr (by simp [he])
        · exact Or.inr (List.mem_cons_of_mem a hm)
      · intro q hq
        rcases List.mem_cons.mp hq with rfl | hq
        · exact hle
        · exact hall q hq
    · have hg : ltB (key a) (key acc) = false := by simp [ltB]; exact not_lt.mp h
      have hstep : (a :: rest).foldl (fun b c => if ltB (key c) (key b) then c else b) acc
          = rest.foldl (fun b c => if ltB (key c) (key b) then c else b) acc := by
        simp [List.foldl_cons, hg]
      rcases ih acc with ⟨hmem, hle, hall⟩
      rw [hstep]
      refine ⟨?_, hle, ?_⟩
      · rcases hmem with he | hm
        · exact Or.inl he
        · exact Or.inr (List.mem_cons_of_mem a hm)
      · intro q hq
        rcases List.mem_cons.mp hq with rfl | hq
        · exact hle.trans (not_lt.mp h)
        · exact hall q hq

lemma foldlBestMax_spec {α : Type} (key : α → ℚ) :
    ∀ (xs : List α) (acc : α),
      (xs.foldl (fun b a => if gtB (key a) (key b) then a else b) acc = acc
        ∨ xs.foldl (fun b a => if gtB (key a) (key b) then a else b) acc ∈ xs)
      ∧ key acc ≤ key (xs.foldl (fun b a => if gtB (key a) (key b) then a else b) acc)
      ∧ ∀ q ∈ xs, key q ≤ key (xs.foldl (fun b a => if gtB (key a) (key b) then a else b) acc) := by
  intro xs
  induction xs with
  | nil => intro acc; exact ⟨Or.inl rfl, le_refl _, by simp⟩
  | cons a rest ih =>
    intro acc
    by_cases h : key acc < key a
    · have hg : gtB (key a) (key acc) = true := by simp [gtB, h]
      have hstep : (a :: rest).foldl (fun b c => if gtB (key c) (key b) then c else b) acc
          = rest.foldl (fun b c => if gtB (key c) (key b) then c else b) a := by
        simp [List.foldl_cons, hg]
      rcases ih a with ⟨hmem, hle, hall⟩
      rw [hstep]
      refine ⟨?_, h.le.trans hle, ?_⟩
      · rcases hmem with he | hm
        · exact Or.inr (by simp [he])
        · exact Or.inr (List.mem_cons_of_mem a hm)
      · intro q hq
        rcases List.mem_cons.mp hq with rfl | hq
        · exact hle
        · exact hall q hq
    · have hg : gtB (key a) (key acc) = false := by simp [gtB]; exact not_lt.mp h
      have hstep : (a :: rest).foldl (fun b c => if gtB (key c) (key b) then c else b) acc
          = rest.foldl (fun b c => if gtB (key c) (key b) then c else b) acc := by
        simp [List.foldl_cons, hg]
      rcases ih acc with ⟨hmem, hle, hall⟩
      rw [hstep]
      refine ⟨?_, hle, ?_⟩
      · rcases hmem with he | hm
        · exact Or.inl he
        · exact Or.inr (List.mem_cons_of_mem a hm)
      · intro q hq
        rcases List.mem_cons.mp hq with rfl | hq
        · exact (not_lt.mp h).trans hle
        · exact hall q hq

/-- Python `min(xs, key=...)` on a nonempty list returns a member whose key
is a lower bound for the keys of every member. -/
lemma pyBestBy_min_spec {α : Type} (key : α → ℚ) (l : List α) (h : l ≠ []) :
    ∃ b, pyBestBy ltB key l = some b ∧ b ∈ l ∧ ∀ q ∈ l, key b ≤ key q := by
  cases l with
  | nil => exact absurd rfl h
  | cons x xs =>
    rcases foldlBestMin_spec key xs x with ⟨hmem, hle, hall⟩
    refine ⟨_, rfl, ?_, ?_⟩
    · rcases hmem with he | hm
      · rw [he]; exact List.mem_cons_self x xs
      · exact List.mem_cons_of_mem x hm
    · intro q hq
      rcases List.mem_cons.mp hq with rfl | hq
      · exact hle
      · exact hall q hq

/-- Python `max(xs, key=...)` on a nonempty list returns a member whose key
is an upper bound for the keys of every member. -/
lemma pyBestBy_max_spec {α : Type} (key : α → ℚ) (l : List α) (h : l ≠ []) :
    ∃ b, pyBestBy gtB key l = some b ∧ b ∈ l ∧ ∀ q ∈ l, key q ≤ key b := by
  cases l with
  | nil => exact absurd rfl h
  | cons x xs =>
    rcases foldlBestMax_spec key xs x with ⟨hmem, hle, hall⟩
    refine ⟨_, rfl, ?_, ?_⟩
    · rcases hmem with he | hm
      · rw [he]; exact List.mem_cons_self x xs
      · exact List.mem_cons_of_mem x hm
    · intro q hq
      rcases List.mem_cons.mp hq with rfl | hq
      · exact hle
      · exact hall q hq

/-- An element of a zip lives at one common index of both lists. -/
lemma mem_zip_idx {α β : Type} :
    ∀ (l1 : List α) (l2 : List β) (p : α × β), p ∈ l1.zip l2 →
      ∃ j, l1.get? j = some p.1 ∧ l2.get? j = some p.2 := by
  intro l1
  induction l1 with
  | nil => intro l2 p hp; simp [List.zip] at hp
  | cons a t1 ih =>
    intro l2 p hp
    cases l2 with
    | nil => simp [List.zip] at hp
    | cons b t2 =>
      rcases List.mem_cons.mp hp with he | hm
      · exact ⟨0, by simp [he], by simp [he]⟩
      · rcases ih t2 p hm with ⟨j, h1, h2⟩
        exact ⟨j + 1, by simpa using h1, by simpa using h2⟩

/-- The integer `(n + d - 1) / d` computed by the sizing helpers is the
ceiling of `n / d`. -/
lemma pyCeilDiv_eq_ceil (n d : ℕ) (hd : 0 < d) :
    pyCeilDiv n d = Nat.ceil ((n : ℚ) / (d : ℚ)) := by
  have hdq : (0 : ℚ) < (d : ℚ) := by exact_mod_cast hd
  apply le_antisymm
  · have h := Nat.le_ceil ((n : ℚ) / (d : ℚ))
    rw [div_le_iff₀ hdq] at h
    have h2 : n ≤ Nat.ceil ((n : ℚ) / (d : ℚ)) * d := by exact_mod_cast h
    show (n + d - 1) / d ≤ Nat.ceil ((n : ℚ) / (d : ℚ))
    have h5 : (Nat.ceil ((n : ℚ) / (d : ℚ)) + 1) * d = Nat.ceil ((n : ℚ) / (d : ℚ)) * d + d := by
      ring
    have h4 : (n + d - 1) / d < Nat.ceil ((n : ℚ) / (d : ℚ)) + 1 :=
      (Nat.div_lt_iff_lt_mul hd).mpr (by omega)
    omega
  · apply Nat.ceil_le.mpr
    rw [div_le_iff₀ hdq]
    have e1 := Nat.div_add_mod (n + d - 1) d
    have e2 : (n + d - 1) % d < d := Nat.mod_lt _ hd
    have hq : d * ((n + d - 1) / d) = (n + d - 1) / d * d := Nat.mul_comm _ _
    have h : n ≤ (n + d - 1) / d * d := by omega
    exact_mod_cast h

/-- The constructor assertion accepts a bound exactly when it is a
two-element [lower, upper] pair with lower ≤ upper. -/
lemma pyValidBound_iff (b : List ℚ) : pyValidBound b = true ↔ WellBound b := by
  rcases b with _ | ⟨a, _ | ⟨c, _ | ⟨d, t⟩⟩⟩ <;> simp [pyValidBound, WellBound]
  constructor
  · exact fun h => ⟨a, c, ⟨rfl, rfl⟩, h⟩
  · rintro ⟨lo, hi, ⟨rfl, rfl⟩, hle⟩
    exact hle

/-! ### Claim theorems -/

/-- C9: for every evaluation budget and keyword configuration,
GridSearch.suggest_from_box and NelderMead.suggest_from_seed return the
keyword arguments unchanged, ignoring `num_evals` entirely. -/
theorem suggest_helpers_ignore_budget :
    (∀ (numEvals : ℕ) (kwargs : List (String × List ℚ)),
        gridSuggestFromBox numEvals kwargs = kwargs) ∧
    ∀ (numEvals : ℕ) (kwargs : List (String × ℚ)),
        nmSuggestFromSeed numEvals kwargs = kwargs :=
  ⟨fun _ _ => rfl, fun _ _ => rfl⟩

/-- C7: ParticleSwarm.suggest_from_box and CSA.suggest_from_box return the
given bounds together with 50 particles/processes and ceil(num_evals/50)
generations above 200 evaluations, 10 and ceil(num_evals/10) between 11
and 200, and num_evals particles/processes with one generation otherwise. -/
theorem suggest_from_box_sizing (numEvals : ℕ) (kwargs : List (String × List ℚ)) :
    (200 < numEvals →
      pswarmSuggestFromBox numEvals kwargs
          = (kwargs, 50, Nat.ceil ((numEvals : ℚ) / 50)) ∧
      csaSuggestFromBox numEvals kwargs
          = (kwargs, 50, Nat.ceil ((numEvals : ℚ) / 50))) ∧
    (10 < numEvals → numEvals ≤ 200 →
      pswarmSuggestFromBox numEvals kwargs
          = (kwargs, 10, Nat.ceil ((numEvals : ℚ) / 10)) ∧
      csaSuggestFromBox numEvals kwargs
          = (kwargs, 10, Nat.ceil ((numEvals : ℚ) / 10))) ∧
    (numEvals ≤ 10 →
      pswarmSuggestFromBox numEvals kwargs = (kwargs, numEvals, 1) ∧
      csaSuggestFromBox numEvals kwargs = (kwargs, numEvals, 1)) := by
  have h50 : pyCeilDiv numEvals 50 = Nat.ceil ((numEvals : ℚ) / 50) := by
    have := pyCeilDiv_eq_ceil numEvals 50 (by norm_num)
    rwa [show (((50 : ℕ) : ℚ)) = (50 : ℚ) by norm_num] at this
  have h10 : pyCeilDiv numEvals 10 = Nat.ceil ((numEvals : ℚ) / 10) := by
    have := pyCeilDiv_eq_ceil numEvals 10 (by norm_num)
    rwa [show (((10 : ℕ) : ℚ)) = (10 : ℚ) by norm_num] at this
  refine ⟨fun h200 => ?_, fun h10a h200 => ?_, fun h10a => ?_⟩
  · simp [pswarmSuggestFromBox, csaSuggestFromBox, h200, h50]
  · have : ¬ 200 < numEvals := by omega
    simp [pswarmSuggestFromBox, csaSuggestFromBox, this, h10a, h10]
  · have h1 : ¬ 200 < numEvals := by omega
    have h2 : ¬ 10 < numEvals := by omega
    simp [pswarmSuggestFromBox, csaSuggestFromBox, h1, h2]

/-- Witness for C7 at num_evals = 300 (the large-budget branch). -/
theorem suggest_from_box_sizing_witness :
    200 < 300 ∧ pswarmSuggestFromBox 300 [] = ([], 50, 6) ∧
      csaSuggestFromBox 300 [] = ([], 50, 6) := by
  have h := (suggest_from_box_sizing 300 []).1 (by norm_num)
  refine ⟨by norm_num, ?_, ?_⟩
  · rw [h.1]
    norm_num
  · rw [h.2]
    norm_num

/-- C8: constructing RandomSearch, ParticleSwarm or CSA succeeds and stores
the bounds unmodified exactly when every bound is an [lower, upper] pair
with lower ≤ upper, and fails immediately with an assertion error when any
bound is malformed; bounds are never silently corrected. -/
theorem box_solver_init_validation (numEvals numParticles numGenerations
    numProcesses numGens2 : ℕ) (maxSpeed : Option ℚ) (T0 Tacc0 : ℚ)
    (kwargs : List (String × List ℚ)) :
    ((∀ kv ∈ kwargs, WellBound kv.2) →
      randomSearchInit numEvals kwargs = .ok kwargs ∧
      particleSwarmInit numParticles numGenerations maxSpeed kwargs = .ok kwargs ∧
      csaInitSolver numProcesses numGens2 T0 Tacc0 kwargs = .ok kwargs) ∧
    ((∃ kv ∈ kwargs, ¬ WellBound kv.2) →
      randomSearchInit numEvals kwargs = .error "AssertionError" ∧
      particleSwarmInit numParticles numGenerations maxSpeed kwargs
          = .error "AssertionError" ∧
      csaInitSolver numProcesses numGens2 T0 Tacc0 kwargs
          = .error "AssertionError") := by
  constructor
  · intro h
    have hall : kwargs.all (fun kv => pyValidBound kv.2) = true := by
      rw [List.all_eq_true]
      intro kv hkv
      exact (pyValidBound_iff kv.2).mpr (h kv hkv)
    simp [randomSearchInit, particleSwarmInit, csaInitSolver, hall]
  · rintro ⟨kv, hkv, hnw⟩
    have hall : kwargs.all (fun kv => pyValidBound kv.2) = false := by
      rw [List.all_eq_false]
      exact ⟨kv, hkv, fun hc => hnw ((pyValidBound_iff kv.2).mp hc)⟩
    simp [randomSearchInit, particleSwarmInit, csaInitSolver, hall]

/-- Witness for C8: a well-formed bound is accepted and stored unchanged,
and a reversed bound is rejected by all three constructors. -/
theorem box_solver_init_validation_witness :
    (∀ kv ∈ [("x", [(0 : ℚ), 1])], WellBound kv.2) ∧
    randomSearchInit 5 [("x", [(0 : ℚ), 1])] = .ok [("x", [(0 : ℚ), 1])] ∧
    (∃ kv ∈ [("y", [(1 : ℚ), 0])], ¬ WellBound kv.2) ∧
    csaInitSolver 3 4 1 1 [("y", [(1 : ℚ), 0])] = .error "AssertionError" := by
  have hw : ∀ kv ∈ [("x", [(0 : ℚ), 1])], WellBound kv.2 := by
    intro kv hkv
    simp only [List.mem_singleton] at hkv
    subst hkv
    exact ⟨0, 1, rfl, by norm_num⟩
  have hbad : ∃ kv ∈ [("y", [(1 : ℚ), 0])], ¬ WellBound kv.2 := by
    refine ⟨("y", [(1 : ℚ), 0]), by simp, ?_⟩
    rintro ⟨lo, hi, heq, hle⟩
    injection heq with e1 rest
    injection rest with e2 _
    rw [← e1, ← e2] at hle
    norm_num at hle
  exact ⟨hw, ((box_solver_init_validation 5 1 1 1 1 none 0 0 [("x", [(0 : ℚ), 1])]).1 hw).1,
    hbad, ((box_solver_init_validation 5 1 1 3 4 none 1 1 [("y", [(1 : ℚ), 0])]).2 hbad).2.2⟩

/-- C10: with num_evals = 0 RandomSearch.optimize never returns a result:
either the empty parameter list makes the Python 2 batch map fail, or the
extremum selection over the empty score sequence raises ValueError. -/
theorem random_search_zero_evals_error (bounds : List (String × List ℚ))
    (u : ℕ → ℕ → ℚ) (f : List ℚ → ℚ) (maximize : Bool) :
    ∃ e, randomSearchOptimize bounds 0 u f maximize = .error e := by
  unfold randomSearchOptimize
  by_cases h : (sortByKey bounds).isEmpty
  · exact ⟨"TypeError", by simp [h]⟩
  · refine ⟨"ValueError", ?_⟩
    simp only [h, Bool.false_eq_true, if_false, List.range_zero, List.map_nil]
    rfl

lemma zipClamp_spec (smax raw : List ℚ)
    (hpos : ∀ j, j < smax.length → 0 ≤ smax.getD j 0) :
    ∀ i, i < ((raw.zip ((psoSmin smax).zip smax)).map
        (fun slh : ℚ × ℚ × ℚ => pyClampSpeed slh.2.1 slh.2.2 slh.1)).length →
      -(smax.getD i 0) ≤ ((raw.zip ((psoSmin smax).zip smax)).map
          (fun slh : ℚ × ℚ × ℚ => pyClampSpeed slh.2.1 slh.2.2 slh.1)).getD i 0 ∧
        ((raw.zip ((psoSmin smax).zip smax)).map
          (fun slh : ℚ × ℚ × ℚ => pyClampSpeed slh.2.1 slh.2.2 slh.1)).getD i 0 ≤
          smax.getD i 0 := by
  intro i hi
  have hiZ : i < (raw.zip ((psoSmin smax).zip smax)).length := by
    simpa only [List.length_map] using hi
  have hjs : i < smax.length := by
    simp only [List.length_zip] at hiZ; omega
  have hjm : i < (psoSmin smax).length := by
    simpa only [psoSmin, List.length_map] using hjs
  rw [List.getD_eq_getElem _ _ hi, List.getElem_map, List.getElem_zip, List.getElem_zip]
  dsimp only
  have hsmin : (psoSmin smax)[i] = -(smax[i]) := by simp [psoSmin]
  have hgd : smax.getD i 0 = smax[i] := List.getD_eq_getElem _ _ hjs
  rw [hsmin, hgd]
  have h0 : (0 : ℚ) ≤ smax[i] := by rw [← hgd]; exact hpos i hjs
  unfold pyClampSpeed
  split_ifs <;> constructor <;> linarith

lemma psoUpdateSpeed_clamped (smax pos best gbest speed u1 u2 : List ℚ)
    (hpos : ∀ j, j < smax.length → 0 ≤ smax.getD j 0) :
    ∀ i, i < (psoUpdateSpeed (psoSmin smax) smax pos best gbest speed u1 u2).length →
      -(smax.getD i 0) ≤ (psoUpdateSpeed (psoSmin smax) smax pos best gbest speed u1 u2).getD i 0 ∧
      (psoUpdateSpeed (psoSmin smax) smax pos best gbest speed u1 u2).getD i 0 ≤ smax.getD i 0 :=
  fun i hi => zipClamp_spec smax _ hpos i hi

/-- C5: after the ParticleSwarm velocity update (with the default
max_speed = 2/num_generations when none is supplied), every velocity
component lies within [-sMax_i, sMax_i] with sMax_i = max_speed *
(upper_i - lower_i). -/
theorem pso_update_speed_within_smax (maxSpeed : Option ℚ) (numGenerations : ℕ)
    (bounds : List (String × List ℚ)) (pos best gbest speed u1 u2 : List ℚ)
    (smax newSpeed : List ℚ)
    (hsmax : smax = psoSmax (psoMaxSpeed maxSpeed numGenerations) bounds)
    (hns : newSpeed = psoUpdateSpeed (psoSmin smax) smax pos best gbest speed u1 u2)
    (hms : 0 ≤ psoMaxSpeed maxSpeed numGenerations)
    (hb : ∀ kv ∈ bounds, WellBound kv.2) :
    ∀ i, i < newSpeed.length →
      -(smax.getD i 0) ≤ newSpeed.getD i 0 ∧ newSpeed.getD i 0 ≤ smax.getD i 0 := by
  subst hsmax
  subst hns
  apply psoUpdateSpeed_clamped
  intro j hj
  have hj2 : j < bounds.length := by simpa [psoSmax] using hj
  rw [List.getD_eq_getElem _ _ hj]
  have hval : (psoSmax (psoMaxSpeed maxSpeed numGenerations) bounds)[j] =
      psoMaxSpeed maxSpeed numGenerations *
        ((bounds[j]).2.getD 1 0 - (bounds[j]).2.getD 0 0) := by
    simp [psoSmax]
  rw [hval]
  rcases hb (bounds[j]) (List.getElem_mem hj2) with ⟨lo, hi2, heq, hle⟩
  rw [heq]
  simp only [List.getD_cons_succ, List.getD_cons_zero]
  exact mul_nonneg hms (by linarith)

/-- Witness for C5: one parameter with bounds [0, 1], one generation
(default max_speed 2), raw updated speed 5 gets clamped into [-2, 2]. -/
theorem pso_update_speed_within_smax_witness :
    0 ≤ psoMaxSpeed none 1 ∧
    (-((psoSmax (psoMaxSpeed none 1) [("x", [(0 : ℚ), 1])]).getD 0 0) ≤
        (psoUpdateSpeed (psoSmin (psoSmax (psoMaxSpeed none 1) [("x", [(0 : ℚ), 1])]))
          (psoSmax (psoMaxSpeed none 1) [("x", [(0 : ℚ), 1])])
          [0] [0] [0] [5] [0] [0]).getD 0 0 ∧
      (psoUpdateSpeed (psoSmin (psoSmax (psoMaxSpeed none 1) [("x", [(0 : ℚ), 1])]))
          (psoSmax (psoMaxSpeed none 1) [("x", [(0 : ℚ), 1])])
          [0] [0] [0] [5] [0] [0]).getD 0 0 ≤
        (psoSmax (psoMaxSpeed none 1) [("x", [(0 : ℚ), 1])]).getD 0 0) := by
  have hms : 0 ≤ psoMaxSpeed none 1 := by norm_num [psoMaxSpeed]
  have hb : ∀ kv ∈ [("x", [(0 : ℚ), 1])], WellBound kv.2 := by
    intro kv hkv
    simp only [List.mem_singleton] at hkv
    subst hkv
    exact ⟨0, 1, rfl, by norm_num⟩
  have hlen : 0 < (psoUpdateSpeed (psoSmin (psoSmax (psoMaxSpeed none 1) [("x", [(0 : ℚ), 1])]))
      (psoSmax (psoMaxSpeed none 1) [("x", [(0 : ℚ), 1])])
      [0] [0] [0] [5] [0] [0]).length := by
    simp [psoUpdateSpeed, psoSmin, psoSmax]
  exact ⟨hms, pso_update_speed_within_smax none 1 [("x", [(0 : ℚ), 1])]
    [0] [0] [0] [5] [0] [0] _ _ rfl rfl hms hb 0 hlen⟩

/-- C6: with every bound a well-formed [lower, upper] pair and every
underlying uniform draw in [0, 1], RandomSearch.optimize with at least one
evaluation returns an assignment, and every returned parameter value lies
inside that parameter's [lower, upper] interval. -/
theorem random_search_within_box (bounds : List (String × List ℚ)) (numEvals : ℕ)
    (u : ℕ → ℕ → ℚ) (f : List ℚ → ℚ) (maximize : Bool)
    (hb : ∀ kv ∈ bounds, WellBound kv.2)
    (hu : ∀ i j, 0 ≤ u i j ∧ u i j ≤ 1)
    (hne : bounds ≠ []) (hev : 1 ≤ numEvals) :
    ∃ res, randomSearchOptimize bounds numEvals u f maximize = .ok res ∧
      ∀ kv ∈ res, ∃ lo hi, (kv.1, [lo, hi]) ∈ bounds ∧ lo ≤ kv.2 ∧ kv.2 ≤ hi := by
  have hperm : List.Perm (sortByKey bounds) bounds :=
    List.perm_insertionSort _ _
  have hsne : sortByKey bounds ≠ [] := by
    intro h
    rw [h] at hperm
    exact hne (List.Perm.nil_eq hperm).symm
  have hie : (sortByKey bounds).isEmpty = false := by
    cases h : sortByKey bounds with
    | nil => exact absurd h hsne
    | cons a t => rfl
  have hslen : (((List.range numEvals).map
      (fun i => (sortByKey bounds).enum.map
        (fun jkv => pyUniform (jkv.2.2.getD 0 0) (jkv.2.2.getD 1 0) (u i jkv.1)))).map f).length
      = numEvals := by simp
  have hsnil : (((List.range numEvals).map
      (fun i => (sortByKey bounds).enum.map
        (fun jkv => pyUniform (jkv.2.2.getD 0 0) (jkv.2.2.getD 1 0) (u i jkv.1)))).map f) ≠ [] := by
    apply List.length_pos.mp
    omega
  have main : ∀ (better : ℚ → ℚ → Bool) i v,
      pyArgBest better (((List.range numEvals).map
        (fun i => (sortByKey bounds).enum.map
          (fun jkv => pyUniform (jkv.2.2.getD 0 0) (jkv.2.2.getD 1 0) (u i jkv.1)))).map f)
        = some (i, v) →
      i < numEvals →
      ∀ kv ∈ ((sortByKey bounds).map Prod.fst).zip
        (((List.range numEvals).map
          (fun i => (sortByKey bounds).enum.map
            (fun jkv => pyUniform (jkv.2.2.getD 0 0) (jkv.2.2.getD 1 0) (u i jkv.1)))).getD i []),
        ∃ lo hi, (kv.1, [lo, hi]) ∈ bounds ∧ lo ≤ kv.2 ∧ kv.2 ≤ hi := by
    intro better i v _ hi kv hkv
    rcases mem_zip_idx _ _ kv hkv with ⟨j, hk, hv⟩
    have hirows : i < ((List.range numEvals).map
        (fun i => (sortByKey bounds).enum.map
          (fun jkv => pyUniform (jkv.2.2.getD 0 0) (jkv.2.2.getD 1 0) (u i jkv.1)))).length := by
      simpa using hi
    have hrow : ((List.range numEvals).map
        (fun i => (sortByKey bounds).enum.map
          (fun jkv => pyUniform (jkv.2.2.getD 0 0) (jkv.2.2.getD 1 0) (u i jkv.1)))).getD i []
        = (sortByKey bounds).enum.map
          (fun jkv => pyUniform (jkv.2.2.getD 0 0) (jkv.2.2.getD 1 0) (u i jkv.1)) := by
      rw [List.getD_eq_getElem _ _ hirows, List.getElem_map, List.getElem_range]
    rw [hrow, List.get?_map, List.get?_enum] at hv
    rw [List.get?_map] at hk
    cases hsj : (sortByKey bounds).get? j with
    | none => rw [hsj] at hk; simp at hk
    | some kv0 =>
      rw [hsj] at hk hv
      simp only [Option.map_some', Option.some.injEq] at hk hv
      have hmem2 : kv0 ∈ bounds := hperm.mem_iff.mp (List.get?_mem hsj)
      rcases hb kv0 hmem2 with ⟨lo, hi2, heq, hle⟩
      refine ⟨lo, hi2, ?_, ?_, ?_⟩
      · rw [← hk, ← heq]
        simpa using hmem2
      · rw [← hv, heq]
        simp only [List.getD_cons_zero, List.getD_cons_succ]
        unfold pyUniform
        have hu1 := (hu i j).1
        nlinarith [mul_nonneg (sub_nonneg.mpr hle) hu1]
      · rw [← hv, heq]
        simp only [List.getD_cons_zero, List.getD_cons_succ]
        unfold pyUniform
        have hu2 := (hu i j).2
        have hmul : (hi2 - lo) * u i j ≤ (hi2 - lo) * 1 :=
          mul_le_mul_of_nonneg_left hu2 (sub_nonneg.mpr hle)
        linarith
  simp only [randomSearchOptimize, hie, Bool.false_eq_true, if_false]
  cases maximize with
  | true =>
    simp only [if_true]
    rcases pyArgBest_max_spec _ hsnil with ⟨i, v, hbest, hlt, _, _, _⟩
    rw [hbest]
    exact ⟨_, rfl, main gtB i v hbest (by rw [hslen] at hlt; exact hlt)⟩
  | false =>
    simp only [Bool.false_eq_true, if_false]
    rcases pyArgBest_min_spec _ hsnil with ⟨i, v, hbest, hlt, _, _, _⟩
    rw [hbest]
    exact ⟨_, rfl, main ltB i v hbest (by rw [hslen] at hlt; exact hlt)⟩

/-- Witness for C6: one parameter with bounds [0, 1], one evaluation, the
uniform draw 1/2. -/
theorem random_search_within_box_witness :
    (1 ≤ 1) ∧
    ∃ res, randomSearchOptimize [("x", [(0 : ℚ), 1])] 1 (fun _ _ => 1 / 2)
        (fun _ => 0) true = .ok res ∧
      ∀ kv ∈ res, ∃ lo hi, (kv.1, [lo, hi]) ∈ [("x", [(0 : ℚ), 1])] ∧
        lo ≤ kv.2 ∧ kv.2 ≤ hi := by
  refine ⟨le_refl 1, ?_⟩
  apply random_search_within_box
  · intro kv hkv
    simp only [List.mem_singleton] at hkv
    subst hkv
    exact ⟨0, 1, rfl, by norm_num⟩
  · intro i j
    norm_num
  · simp
  · exact le_refl 1

/-- C4: GridSearch.optimize evaluates the full Cartesian product (keys
sorted, rightmost parameter fastest) and returns the tuple whose value is
extremal, the first tuple in enumeration order winning ties; on the grid
x in 1,2,3 and y in -1,0,1 maximizing x*y it returns the assignment
x = 3, y = 1. -/
theorem gridsearch_optimize_best_of_product :
    (∀ (params : List (String × List ℚ)) (f : List ℚ → ℚ) (maximize : Bool),
      sortByKey params ≠ [] →
      pyProduct ((sortByKey params).map Prod.snd) ≠ [] →
      ∃ i, i < (pyProduct ((sortByKey params).map Prod.snd)).length ∧
        gridSearchOptimize params f maximize =
          .ok (((sortByKey params).map Prod.fst).zip
            ((pyProduct ((sortByKey params).map Prod.snd)).getD i [])) ∧
        (∀ j, j < (pyProduct ((sortByKey params).map Prod.snd)).length →
          (maximize = true →
            f ((pyProduct ((sortByKey params).map Prod.snd)).getD j []) ≤
              f ((pyProduct ((sortByKey params).map Prod.snd)).getD i [])) ∧
          (maximize = false →
            f ((pyProduct ((sortByKey params).map Prod.snd)).getD i []) ≤
              f ((pyProduct ((sortByKey params).map Prod.snd)).getD j []))) ∧
        (∀ j, j < i →
          (maximize = true →
            f ((pyProduct ((sortByKey params).map Prod.snd)).getD j []) <
              f ((pyProduct ((sortByKey params).map Prod.snd)).getD i [])) ∧
          (maximize = false →
            f ((pyProduct ((sortByKey params).map Prod.snd)).getD i []) <
              f ((pyProduct ((sortByKey params).map Prod.snd)).getD j [])))) ∧
    gridSearchOptimize [("x", [1, 2, 3]), ("y", [-1, 0, 1])]
      (fun t => t.getD 0 0 * t.getD 1 0) true = .ok [("x", 3), ("y", 1)] := by
  constructor
  · intro params f maximize hne hprod
    have hie : (sortByKey params).isEmpty = false := by
      cases h : sortByKey params with
      | nil => exact absurd h hne
      | cons a t => rfl
    have hpe : (pyProduct ((sortByKey params).map Prod.snd)).isEmpty = false := by
      cases h : pyProduct ((sortByKey params).map Prod.snd) with
      | nil => exact absurd h hprod
      | cons a t => rfl
    have hsnil : (pyProduct ((sortByKey params).map Prod.snd)).map f ≠ [] := by
      apply List.length_pos.mp
      have := List.length_pos.mpr hprod
      simpa using this
    have hms : ∀ j, j < (pyProduct ((sortByKey params).map Prod.snd)).length →
        ((pyProduct ((sortByKey params).map Prod.snd)).map f).getD j 0 =
          f ((pyProduct ((sortByKey params).map Prod.snd)).getD j []) := by
      intro j hj
      rw [List.getD_eq_getElem _ _ (by simpa using hj), List.getElem_map,
        List.getD_eq_getElem _ _ hj]
    cases maximize with
    | true =>
      rcases pyArgBest_max_spec _ hsnil with ⟨i, v, hbest, hlen, hval, hall, hfirst⟩
      have hil : i < (pyProduct ((sortByKey params).map Prod.snd)).length := by
        simpa using hlen
      refine ⟨i, hil, ?_, ?_, ?_⟩
      · simp only [gridSearchOptimize, hie, hpe, Bool.or_self, Bool.false_eq_true,
          if_false, if_true, hbest]
      · intro j hj
        refine ⟨fun _ => ?_, fun h => Bool.noConfusion h⟩
        have h1 := hall j (by simpa using hj)
        rw [hms j hj] at h1
        rw [hms i hil] at hval
        rw [hval]
        exact h1
      · intro j hj
        refine ⟨fun _ => ?_, fun h => Bool.noConfusion h⟩
        have h1 := hfirst j hj
        rw [hms j (lt_trans hj hil)] at h1
        rw [hms i hil] at hval
        rw [hval]
        exact h1
    | false =>
      rcases pyArgBest_min_spec _ hsnil with ⟨i, v, hbest, hlen, hval, hall, hfirst⟩
      have hil : i < (pyProduct ((sortByKey params).map Prod.snd)).length := by
        simpa using hlen
      refine ⟨i, hil, ?_, ?_, ?_⟩
      · simp only [gridSearchOptimize, hie, hpe, Bool.or_self, Bool.false_eq_true,
          if_false, hbest]
      · intro j hj
        refine ⟨fun h => Bool.noConfusion h, fun _ => ?_⟩
        have h1 := hall j (by simpa using hj)
        rw [hms j hj] at h1
        rw [hms i hil] at hval
        rw [hval]
        exact h1
      · intro j hj
        refine ⟨fun h => Bool.noConfusion h, fun _ => ?_⟩
        have h1 := hfirst j hj
        rw [hms j (lt_trans hj hil)] at h1
        rw [hms i hil] at hval
        rw [hval]
        exact h1
  · have hsort : sortByKey [("x", [(1 : ℚ), 2, 3]), ("y", [(-1 : ℚ), 0, 1])]
        = [("x", [(1 : ℚ), 2, 3]), ("y", [(-1 : ℚ), 0, 1])] := by
      simp [sortByKey, List.insertionSort, List.orderedInsert]
      decide
    simp only [gridSearchOptimize, hsort]
    norm_num [pyProduct, pyArgBest, pyArgBestGo, gtB, ltB]

/-- Witness for C4 on a one-parameter grid (no ties): the general statement
applies and picks the extremal grid point. -/
theorem gridsearch_optimize_best_of_product_witness :
    sortByKey [("x", [(1 : ℚ), 2])] ≠ [] ∧
    pyProduct ((sortByKey [("x", [(1 : ℚ), 2])]).map Prod.snd) ≠ [] ∧
    ∃ i, i < (pyProduct ((sortByKey [("x", [(1 : ℚ), 2])]).map Prod.snd)).length ∧
      gridSearchOptimize [("x", [(1 : ℚ), 2])] (fun t => t.getD 0 0) true =
        .ok (((sortByKey [("x", [(1 : ℚ), 2])]).map Prod.fst).zip
          ((pyProduct ((sortByKey [("x", [(1 : ℚ), 2])]).map Prod.snd)).getD i [])) ∧
      (∀ j, j < (pyProduct ((sortByKey [("x", [(1 : ℚ), 2])]).map Prod.snd)).length →
        (true = true →
          (fun t => t.getD 0 0) ((pyProduct ((sortByKey [("x", [(1 : ℚ), 2])]).map Prod.snd)).getD j []) ≤
            (fun t => t.getD 0 0) ((pyProduct ((sortByKey [("x", [(1 : ℚ), 2])]).map Prod.snd)).getD i [])) ∧
        (true = false →
          (fun t => t.getD 0 0) ((pyProduct ((sortByKey [("x", [(1 : ℚ), 2])]).map Prod.snd)).getD i []) ≤
            (fun t => t.getD 0 0) ((pyProduct ((sortByKey [("x", [(1 : ℚ), 2])]).map Prod.snd)).getD j []))) ∧
      (∀ j, j < i →
        (true = true →
          (fun t => t.getD 0 0) ((pyProduct ((sortByKey [("x", [(1 : ℚ), 2])]).map Prod.snd)).getD j []) <
            (fun t => t.getD 0 0) ((pyProduct ((sortByKey [("x", [(1 : ℚ), 2])]).map Prod.snd)).getD i [])) ∧
        (true = false →
          (fun t => t.getD 0 0) ((pyProduct ((sortByKey [("x", [(1 : ℚ), 2])]).map Prod.snd)).getD i []) <
            (fun t => t.getD 0 0) ((pyProduct ((sortByKey [("x", [(1 : ℚ), 2])]).map Prod.snd)).getD j []))) := by
  have h1 : sortByKey [("x", [(1 : ℚ), 2])] ≠ [] := by
    simp [sortByKey, List.insertionSort, List.orderedInsert]
  have h2 : pyProduct ((sortByKey [("x", [(1 : ℚ), 2])]).map Prod.snd) ≠ [] := by
    have hs : sortByKey [("x", [(1 : ℚ), 2])] = [("x", [(1 : ℚ), 2])] := by
      simp [sortByKey, List.insertionSort, List.orderedInsert]
    rw [hs]
    simp [pyProduct]
  exact ⟨h1, h2, gridsearch_optimize_best_of_product.1
    [("x", [(1 : ℚ), 2])] (fun t => t.getD 0 0) true h1 h2⟩

/-- C2 evaluation at a failing input: on the sorted 2-D simplex
[[0,0],[1,0],[0,1]] with cached values [0,1,2] and an objective whose
reflected point [1,-1] has value 1/2, the reflected value 1/2 lies strictly
between the cached best 0 and second-worst 1 (the intended guard holds),
but the guard written in the source compares the float against the vertex
arrays and is identically False in CPython 2, so the iteration shrinks the
simplex instead of accepting the reflected point as the new worst vertex. -/
theorem nm_reflect_guard_compares_vertices_not_values :
    nmReflectGuardIntended [0, 1, 2] ((1 : ℚ) / 2) = true ∧
    nmReflectGuard [[0, 0], [1, 0], [0, 1]] ((1 : ℚ) / 2) = false ∧
    (fun v : List ℚ => if v = [0, 0] then (0 : ℚ) else if v = [1, 0] then 1
        else if v = [0, 1] then 2 else if v = [1, -1] then 1 / 2 else 99)
      (nmReflect (simplexCenter [[0, 0], [1, 0]]) [0, 1] 1) = 1 / 2 ∧
    (nmIteration
        (fun v : List ℚ => if v = [0, 0] then (0 : ℚ) else if v = [1, 0] then 1
          else if v = [0, 1] then 2 else if v = [1, -1] then 1 / 2 else 99)
        [[0, 0], [1, 0], [0, 1]] [0, 1, 2]).1
      = [[0, 0], [-(1 / 2), 0], [0, -(1 / 2)]] ∧
    (nmIteration
        (fun v : List ℚ => if v = [0, 0] then (0 : ℚ) else if v = [1, 0] then 1
          else if v = [0, 1] then 2 else if v = [1, -1] then 1 / 2 else 99)
        [[0, 0], [1, 0], [0, 1]] [0, 1, 2]).1
      ≠ [[0, 0], [1, 0], [1, -1]] := by
  refine ⟨?_, ?_, ?_, ?_, ?_⟩
  · norm_num [nmReflectGuardIntended]
  · norm_num [nmReflectGuard, py2LtArrayNum]
  · norm_num [nmReflect, nmScale, simplexCenter]
  · norm_num [nmIteration, nmReflectGuard, py2LtArrayNum, py2LtNumArray,
      nmReflect, nmScale, simplexCenter]
  · norm_num [nmIteration, nmReflectGuard, py2LtArrayNum, py2LtNumArray,
      nmReflect, nmScale, simplexCenter]

/-- C1 (amended): in every CSA generation the probability handed to each
process's accept/reject draw is 1.0 when the proposal strictly improves on
the accepted cost under the maximize/minimize comparator, and otherwise
expcost / (expcost + gamma(k)) with expcost = exp(-ycost*sign/Tacc(k)) and
gamma(k) the sum of exp(-cost(x)*sign/Tacc(k)) over all processes. -/
theorem csa_generation_acceptance_probability (E Lg : ℚ → ℚ) (T0 Tacc0 : ℚ)
    (numDims : ℕ) (mult : ℚ) (maximize : Bool) (f : List ℚ → ℚ)
    (cauchyK : ℕ → ℕ → ℚ) (drawsK : ℕ → ℚ) (k : ℕ) (procs : List SAProc)
    (i : ℕ) (hi : i < procs.length) :
    (csaGenStep E Lg T0 Tacc0 numDims mult maximize f cauchyK drawsK k procs).get? i =
      some (saAccept (procs.getD i ⟨[], none, []⟩)
        (csaGenerate (csaT T0 k) (cauchyK i) numDims (procs.getD i ⟨[], none, []⟩).x)
        (f (csaGenerate (csaT T0 k) (cauchyK i) numDims (procs.getD i ⟨[], none, []⟩).x))
        (drawsK i)
        (csaAcceptProb E (csaTacc Lg Tacc0 k) mult maximize
          (csaGamma E (csaTacc Lg Tacc0 k) mult procs)
          ((procs.getD i ⟨[], none, []⟩).cost.getD 0)
          (f (csaGenerate (csaT T0 k) (cauchyK i) numDims
            (procs.getD i ⟨[], none, []⟩).x)))) := by
  have hg : procs.get? i = some (procs.getD i ⟨[], none, []⟩) := by
    rw [List.get?_eq_getElem?, List.getElem?_eq_getElem hi, List.getD_eq_getElem _ _ hi]
  simp only [csaGenStep]
  rw [List.get?_map, List.get?_enum, hg]
  rfl

/-- Witness for C1 at a single non-improving process: the seeded process at
cost 0 proposes cost 0 again, the probability is 1/(1+1) = 1/2, and the
draw 0 accepts. -/
theorem csa_generation_acceptance_probability_witness :
    0 < 1 ∧
    (csaGenStep (fun _ => 1) (fun _ => 1) 0 1 1 1 false (fun _ => 0)
        (fun _ _ => 0) (fun _ => 0) 0 [⟨[0], some 0, []⟩]).get? 0 =
      some ⟨[0], some 0, [([0], 0)]⟩ := by
  refine ⟨Nat.zero_lt_one, ?_⟩
  have h := csa_generation_acceptance_probability (fun _ => 1) (fun _ => 1) 0 1 1 1
    false (fun _ => 0) (fun _ _ => 0) (fun _ => 0) 0 [⟨[0], some 0, []⟩] 0 (by norm_num)
  rw [h]
  norm_num [saAccept, csaAcceptProb, csaGamma, csaExp, csaGenerate, csaTacc, csaT]

/-- C1 counterexample to the claim as stated: with one process seeded at
cost 0 and a non-improving proposal of cost 0, the probability computed by
the source is expcost / (expcost + gamma) = 1/2, while the spec's formula
expcost / gamma gives 1.  Every exponent evaluated here is 0 and
math.exp(0.0) = 1.0 exactly, so the constant-one stand-in for exp agrees
with the source's exp at every point this statement evaluates. -/
theorem csa_acceptance_probability_claim_counterexample :
    csaAcceptProb (fun _ => 1) 1 1 false
        (csaGamma (fun _ => 1) 1 1 [⟨[0], some 0, []⟩]) 0 0 = 1 / 2 ∧
    csaAcceptProbClaim (fun _ => 1) 1 1 false
        (csaGamma (fun _ => 1) 1 1 [⟨[0], some 0, []⟩]) 0 0 = 1 ∧
    ((1 : ℚ) / 2) ≠ 1 := by
  norm_num [csaAcceptProb, csaAcceptProbClaim, csaGamma, csaExp]

lemma saAccept_log (p : SAProc) (y : List ℚ) (ycost draw prob : ℚ) :
    (saAccept p y ycost draw prob).log = p.log ++ [(y, ycost)] := by
  unfold saAccept
  split <;> rfl

lemma csaGenStep_length (E Lg : ℚ → ℚ) (T0 Tacc0 : ℚ) (numDims : ℕ) (mult : ℚ)
    (maximize : Bool) (f : List ℚ → ℚ) (cauchyK : ℕ → ℕ → ℚ) (drawsK : ℕ → ℚ)
    (k : ℕ) (procs : List SAProc) :
    (csaGenStep E Lg T0 Tacc0 numDims mult maximize f cauchyK drawsK k procs).length
      = procs.length := by
  simp [csaGenStep]

lemma csaGenStep_mem (E Lg : ℚ → ℚ) (T0 Tacc0 : ℚ) (numDims : ℕ) (mult : ℚ)
    (maximize : Bool) (f : List ℚ → ℚ) (cauchyK : ℕ → ℕ → ℚ) (drawsK : ℕ → ℚ)
    (k : ℕ) (procs : List SAProc) (q : SAProc)
    (hq : q ∈ csaGenStep E Lg T0 Tacc0 numDims mult maximize f cauchyK drawsK k procs) :
    ∃ p ∈ procs, ∃ y c d pr, q = saAccept p y c d pr := by
  simp only [csaGenStep, List.mem_map] at hq
  rcases hq with ⟨ip, hip, he⟩
  have hg := List.mem_enum_iff_get?.mp hip
  exact ⟨ip.2, List.get?_mem hg, _, _, _, _, he.symm⟩

lemma csaFold_invariant (E Lg : ℚ → ℚ) (T0 Tacc0 : ℚ) (numDims : ℕ) (mult : ℚ)
    (maximize : Bool) (f : List ℚ → ℚ) (cauchy : ℕ → ℕ → ℕ → ℚ)
    (draws : ℕ → ℕ → ℚ) :
    ∀ (l : List ℕ) (procs : List SAProc) (m : ℕ),
      (∀ p ∈ procs, p.log.length = m) →
      (l.foldl (fun procs it =>
          csaGenStep E Lg T0 Tacc0 numDims mult maximize f (cauchy it) (draws (it + 1))
            it procs) procs).length = procs.length ∧
      ∀ p ∈ l.foldl (fun procs it =>
          csaGenStep E Lg T0 Tacc0 numDims mult maximize f (cauchy it) (draws (it + 1))
            it procs) procs, p.log.length = m + l.length := by
  intro l
  induction l with
  | nil => intro procs m hall; exact ⟨rfl, by simpa using hall⟩
  | cons it l ih =>
    intro procs m hall
    have hstep : ∀ p ∈ csaGenStep E Lg T0 Tacc0 numDims mult maximize f (cauchy it)
        (draws (it + 1)) it procs, p.log.length = m + 1 := by
      intro p hp
      rcases csaGenStep_mem E Lg T0 Tacc0 numDims mult maximize f (cauchy it)
        (draws (it + 1)) it procs p hp with ⟨p0, hp0, y, c, d, pr, he⟩
      rw [he, saAccept_log]
      simp [hall p0 hp0]
    rcases ih (csaGenStep E Lg T0 Tacc0 numDims mult maximize f (cauchy it)
        (draws (it + 1)) it procs) (m + 1) hstep with ⟨hlen, hlog⟩
    constructor
    · simp only [List.foldl_cons]
      rw [hlen, csaGenStep_length]
    · intro p hp
      simp only [List.foldl_cons] at hp
      have := hlog p hp
      simp only [List.length_cons] at *
      omega

lemma csaInitProcs_length (numProcs : ℕ) (inits : ℕ → List ℚ) (f : List ℚ → ℚ)
    (draws0 : ℕ → ℚ) : (csaInitProcs numProcs inits f draws0).length = numProcs := by
  simp [csaInitProcs]

lemma csaInitProcs_log (numProcs : ℕ) (inits : ℕ → List ℚ) (f : List ℚ → ℚ)
    (draws0 : ℕ → ℚ) :
    ∀ p ∈ csaInitProcs numProcs inits f draws0, p.log.length = 1 := by
  intro p hp
  simp only [csaInitProcs, List.mem_map] at hp
  rcases hp with ⟨i, _, he⟩
  rw [← he, saAccept_log]
  simp

/-- C3: in a CSA run of at least one process and one generation, every
process's log holds one (proposal, cost) entry per generation —
initialization and every later proposal are appended whether or not they
are accepted — and the assignment returned by CSA.optimize is the entry of
the concatenated logs whose cost is extremal (max when maximizing, min
when minimizing), so for minimization its cost is ≤ every logged cost. -/
theorem csa_optimize_returns_best_logged (E Lg : ℚ → ℚ) (T0 Tacc0 : ℚ)
    (numDims numProcs numGens : ℕ) (maximize : Bool) (f : List ℚ → ℚ)
    (inits : ℕ → List ℚ) (cauchy : ℕ → ℕ → ℕ → ℚ) (draws : ℕ → ℕ → ℚ)
    (hp : 1 ≤ numProcs) (hg : 1 ≤ numGens) :
    (∀ p ∈ csaRun E Lg T0 Tacc0 numDims numProcs numGens maximize f inits cauchy draws,
        p.log.length = numGens) ∧
    ∃ best,
      best ∈ (csaRun E Lg T0 Tacc0 numDims numProcs numGens maximize f inits
          cauchy draws).flatMap SAProc.log ∧
      csaOptimize E Lg T0 Tacc0 numDims numProcs numGens maximize f inits cauchy draws
          = .ok best.1 ∧
      ∀ q ∈ (csaRun E Lg T0 Tacc0 numDims numProcs numGens maximize f inits
          cauchy draws).flatMap SAProc.log,
        (maximize = true → q.2 ≤ best.2) ∧ (maximize = false → best.2 ≤ q.2) := by
  have hrun : csaRun E Lg T0 Tacc0 numDims numProcs numGens maximize f inits cauchy draws
      = (List.range (numGens - 1)).foldl (fun procs it =>
          csaGenStep E Lg T0 Tacc0 numDims (if maximize then -1 else 1) maximize f
            (cauchy it) (draws (it + 1)) it procs)
        (csaInitProcs numProcs inits f (draws 0)) := rfl
  rcases csaFold_invariant E Lg T0 Tacc0 numDims (if maximize then -1 else 1) maximize f
      cauchy draws (List.range (numGens - 1)) (csaInitProcs numProcs inits f (draws 0)) 1
      (csaInitProcs_log numProcs inits f (draws 0)) with ⟨hlen, hlog⟩
  rw [← hrun] at hlen hlog
  rw [csaInitProcs_length] at hlen
  simp only [List.length_range] at hlog
  have hloglen : ∀ p ∈ csaRun E Lg T0 Tacc0 numDims numProcs numGens maximize f inits
      cauchy draws, p.log.length = numGens := by
    intro p hp2
    rw [hlog p hp2]
    omega
  refine ⟨hloglen, ?_⟩
  have hrne : csaRun E Lg T0 Tacc0 numDims numProcs numGens maximize f inits cauchy draws
      ≠ [] := by
    apply List.length_pos.mp
    omega
  rcases List.exists_mem_of_ne_nil _ hrne with ⟨p0, hp0⟩
  have hp0log : p0.log ≠ [] := by
    apply List.length_pos.mp
    rw [hloglen p0 hp0]
    omega
  rcases List.exists_mem_of_ne_nil _ hp0log with ⟨e0, he0⟩
  have hlogsne : (csaRun E Lg T0 Tacc0 numDims numProcs numGens maximize f inits
      cauchy draws).flatMap SAProc.log ≠ [] := by
    apply List.ne_nil_of_mem
    exact List.mem_flatMap.mpr ⟨p0, hp0, he0⟩
  cases maximize with
  | true =>
    rcases pyBestBy_max_spec Prod.snd _ hlogsne with ⟨b, hbeq, hbmem, hball⟩
    refine ⟨b, hbmem, ?_, ?_⟩
    · simp only [csaOptimize, if_true]
      rw [hbeq]
    · intro q hq
      exact ⟨fun _ => hball q hq, fun h => Bool.noConfusion h⟩
  | false =>
    rcases pyBestBy_min_spec Prod.snd _ hlogsne with ⟨b, hbeq, hbmem, hball⟩
    refine ⟨b, hbmem, ?_, ?_⟩
    · simp only [csaOptimize, Bool.false_eq_true, if_false]
      rw [hbeq]
    · intro q hq
      exact ⟨fun h => Bool.noConfusion h, fun _ => hball q hq⟩

/-- Witness for C3: one process, one generation, constant objective; the
returned point is the single logged proposal. -/
theorem csa_optimize_returns_best_logged_witness :
    1 ≤ 1 ∧
    (∀ p ∈ csaRun (fun _ => 1) (fun _ => 1) 1 1 1 1 1 false (fun _ => 0)
        (fun _ => [0]) (fun _ _ _ => 0) (fun _ _ => 0), p.log.length = 1) ∧
    ∃ best,
      best ∈ (csaRun (fun _ => 1) (fun _ => 1) 1 1 1 1 1 false (fun _ => 0)
          (fun _ => [0]) (fun _ _ _ => 0) (fun _ _ => 0)).flatMap SAProc.log ∧
      csaOptimize (fun _ => 1) (fun _ => 1) 1 1 1 1 1 false (fun _ => 0)
          (fun _ => [0]) (fun _ _ _ => 0) (fun _ _ => 0) = .ok best.1 ∧
      ∀ q ∈ (csaRun (fun _ => 1) (fun _ => 1) 1 1 1 1 1 false (fun _ => 0)
          (fun _ => [0]) (fun _ _ _ => 0) (fun _ _ => 0)).flatMap SAProc.log,
        (false = true → q.2 ≤ best.2) ∧ (false = false → best.2 ≤ q.2) := by
  have h := csa_optimize_returns_best_logged (fun _ => 1) (fun _ => 1) 1 1 1 1 1 false
    (fun _ => 0) (fun _ => [0]) (fun _ _ _ => 0) (fun _ _ => 0) (le_refl 1) (le_refl 1)
  exact ⟨le_refl 1, h.1, h.2⟩

end Optunity
